import Mathlib

/-!
# Editable résumé page (`src/js/main.js`)

A shallow embedding of the handlers of `main.js`:

* the pagination code of `generatePDF` (lines 254-270), over exact rational
  arithmetic, as a `while` loop run with a bound on the number of iterations;
* the persistence handlers `saveData`, `loadSavedData`, `resetData`,
  `changeLanguageLevel` over an explicit key-value store and page state;
* the `try`/`catch` handlers `changePhoto`, `changeToolImg`, `downloadPDF`,
  with the outcome of each awaited external operation given as an argument.
-/

namespace Resume

/-! ## Pagination (`generatePDF`, lines 254-270) -/

/-- A call made on the jsPDF document: `pdf.addPage()` or
`pdf.addImage(imgData, 'PNG', x, y, w, h, undefined, 'FAST')`. The image data,
format, alias and compression arguments are the same in every call and are
left out. -/
inductive PdfCall where
  | addPage : PdfCall
  | addImage (x y w h : ℚ) : PdfCall
deriving DecidableEq, Repr

/-- The variables of the `while` loop, with the calls issued so far (oldest
first). -/
structure LoopState where
  heightLeft : ℚ
  position : ℚ
  calls : List PdfCall
deriving DecidableEq, Repr

/-- The loop condition `heightLeft > 0` (line 263). -/
def loopCond (s : LoopState) : Bool :=
  decide (s.heightLeft > 0)

/-- One run of the loop body (lines 264-269). -/
def loopBody (imgWidth imgHeight pageHeight : ℚ) (s : LoopState) : LoopState :=
  { heightLeft := s.heightLeft - pageHeight
    position := s.position + pageHeight
    calls :=
      if s.position ≠ 0 then
        s.calls ++ [PdfCall.addPage, PdfCall.addImage 0 (-s.position) imgWidth imgHeight]
      else s.calls }

/-- The `while` loop (lines 263-270) run for at most `fuel` iterations: `none`
when the condition still holds after `fuel` iterations. -/
def whileLoop (imgWidth imgHeight pageHeight : ℚ) : Nat → LoopState → Option LoopState
  | 0, s => if loopCond s then none else some s
  | fuel + 1, s =>
    if loopCond s then
      whileLoop imgWidth imgHeight pageHeight fuel (loopBody imgWidth imgHeight pageHeight s)
    else some s

/-- The state on entry to the loop: the first `addImage` (line 257) has been
issued, `heightLeft = imgHeight`, `position = 0` (lines 260-261). -/
def loopInit (imgWidth imgHeight : ℚ) : LoopState :=
  { heightLeft := imgHeight
    position := 0
    calls := [PdfCall.addImage 0 0 imgWidth imgHeight] }

/-- Lines 257-270: the calls made on the document, when the loop finishes
within `fuel` iterations. -/
def paginate (fuel : Nat) (imgWidth imgHeight pageHeight : ℚ) : Option (List PdfCall) :=
  (whileLoop imgWidth imgHeight pageHeight fuel (loopInit imgWidth imgHeight)).map
    LoopState.calls

/-- The vertical positions of the image-draw calls, in order. -/
def drawPositions : List PdfCall → List ℚ
  | [] => []
  | PdfCall.addPage :: cs => drawPositions cs
  | PdfCall.addImage _ y _ _ :: cs => y :: drawPositions cs

/-- The number of `addPage` calls. -/
def addPageCount : List PdfCall → Nat
  | [] => 0
  | PdfCall.addPage :: cs => addPageCount cs + 1
  | PdfCall.addImage _ _ _ _ :: cs => addPageCount cs

/-- The calls of page `k + 1`: a new page, then the image drawn at
`-((k + 1) * pageHeight)`. -/
def laterPage (imgWidth imgHeight pageHeight : ℚ) (k : Nat) : List PdfCall :=
  [PdfCall.addPage, PdfCall.addImage 0 (-(((k + 1 : Nat) : ℚ) * pageHeight)) imgWidth imgHeight]

/-- The call sequence of a document of `n` pages: the image on the first page,
then `n - 1` later pages. -/
def pageCalls (imgWidth imgHeight pageHeight : ℚ) (n : Nat) : List PdfCall :=
  PdfCall.addImage 0 0 imgWidth imgHeight ::
    ((List.range (n - 1)).map (laterPage imgWidth imgHeight pageHeight)).flatten

/-- The loop state after `k` iterations from `loopInit`, in closed form. -/
def stateAt (imgWidth imgHeight pageHeight : ℚ) (k : Nat) : LoopState :=
  { heightLeft := imgHeight - (k : ℚ) * pageHeight
    position := (k : ℚ) * pageHeight
    calls := pageCalls imgWidth imgHeight pageHeight k }

/-! ## Key-value store, page and application state -/

/-- A JavaScript number as far as the handlers use it: `none` is `NaN`, and
`some q` a finite value, taken exactly. -/
abbrev JSNum := Option ℚ

/-- The `localStorage` store: string keys with string values, each key at most
once, in insertion order. -/
abbrev Store := List (String × String)

/-- The result of `localStorage.getItem(key)`: `none` is `null`. -/
def getItem : Store → String → Option String
  | [], _ => none
  | (k, v) :: rest, key => if k = key then some v else getItem rest key

/-- The store after `localStorage.setItem(key, value)`. -/
def setItem : Store → String → String → Store
  | [], key, value => [(key, value)]
  | (k, v) :: rest, key, value =>
    if k = key then (k, value) :: rest else (k, v) :: setItem rest key value

/-- The store after `localStorage.clear()`. -/
def clear : Store := []

/-- An element of class `editable`: its `id`, its `innerHTML`, and
`dataset.original` (`none` when the attribute is missing). -/
structure Editable where
  id : String
  innerHTML : String
  original : Option String
deriving DecidableEq, Repr

/-- An image `.tool-img[id^="tool-img"]`. -/
structure ToolImg where
  id : String
  src : String
deriving DecidableEq, Repr

/-- A file input `.tool-img[id^="tool-input"]`. -/
structure ToolInput where
  id : String
  value : String
deriving DecidableEq, Repr

/-- A button `.power button` with its `dataset.lang`, `dataset.level` and
whether its class list holds `active` and `lastActive`. -/
structure Button where
  lang : String
  level : String
  active : Bool
  lastActive : Bool
deriving DecidableEq, Repr

/-- The parts of the document the handlers read and write. Every element the
handlers look up by id (`photo`, `photo-input`, `notification`) exists. -/
structure Page where
  editables : List Editable
  photoSrc : String
  photoInputValue : String
  toolImgs : List ToolImg
  toolInputs : List ToolInput
  buttons : List Button
  notificationText : String
  notificationShown : Bool
deriving DecidableEq, Repr

/-- The state the handlers act on: the store, the page, the messages passed
to `showNotification` and to `console.error` so far, and the files written by
`pdf.save` with the calls that built each document. -/
structure App where
  store : Store
  page : Page
  shown : List String
  consoleErrors : List String
  savedFiles : List (String × List PdfCall)
deriving DecidableEq, Repr

/-- Line 6. -/
def DEFAULT_LANGUAGE_LEVEL : ℚ := 5

/-- The default argument of `showNotification` (line 202). -/
def defaultMessage : String := "Изменения сохранены!"

/-- Lines 202-210: the message is written to the notification element, which
gets the class `show`. The timer that removes the class later is left out. -/
def showNotification (message : String) (app : App) : App :=
  { app with
    page := { app.page with notificationText := message, notificationShown := true }
    shown := app.shown ++ [message] }

/-- Lines 139-143. -/
def saveData (app : App) : App :=
  { app with
    store := app.page.editables.foldl (fun st element => setItem st element.id element.innerHTML)
      app.store }

/-- Lines 52-55. -/
def handleEditableBlur (app : App) : App :=
  showNotification defaultMessage (saveData app)

/-- Lines 148-149 for one element: `if (savedValue)` holds for a string that
is not empty, and fails for `null` and for `''`. -/
def loadEditable (store : Store) (element : Editable) : Editable :=
  match getItem store element.id with
  | some savedValue => if savedValue ≠ "" then { element with innerHTML := savedValue } else element
  | none => element

/-- Lines 153-154. -/
def loadPhoto (store : Store) (photoSrc : String) : String :=
  match getItem store "resumePhoto" with
  | some savedPhoto => if savedPhoto ≠ "" then savedPhoto else photoSrc
  | none => photoSrc

/-- Lines 158-159 for one image. -/
def loadToolImg (store : Store) (img : ToolImg) : ToolImg :=
  match getItem store img.id with
  | some savedImg => if savedImg ≠ "" then { img with src := savedImg } else img
  | none => img

/-- The key `lang-${lang}-level`. -/
def levelKey (lang : String) : String :=
  "lang-" ++ lang ++ "-level"

/-- `a <= b` on numbers: false when either is `NaN`. -/
def jsLe : JSNum → JSNum → Bool
  | some a, some b => decide (a ≤ b)
  | _, _ => false

/-- `a === b` on numbers (and `a == b`): false when either is `NaN`. -/
def jsEq : JSNum → JSNum → Bool
  | some a, some b => decide (a = b)
  | _, _ => false

/-- Line 166: `Number(localStorage.getItem(key) || DEFAULT_LANGUAGE_LEVEL)`,
with `number` the built-in `Number` on strings. The default is taken for
`null` and for `''`. -/
def savedLevelOf (number : String → JSNum) (store : Store) (lang : String) : JSNum :=
  match getItem store (levelKey lang) with
  | some saved => if saved ≠ "" then number saved else some DEFAULT_LANGUAGE_LEVEL
  | none => some DEFAULT_LANGUAGE_LEVEL

/-- Lines 164-171 for one button. -/
def loadButton (number : String → JSNum) (store : Store) (btn : Button) : Button :=
  let lang := btn.lang
  let level := number btn.level
  let savedLevel := savedLevelOf number store lang
  if jsLe level savedLevel then
    if jsEq level savedLevel then { btn with active := true, lastActive := true }
    else { btn with active := true }
  else btn

/-- Lines 145-173, with `number` the built-in `Number` on strings. -/
def loadSavedData (number : String → JSNum) (app : App) : App :=
  { app with
    page :=
      { app.page with
        editables := app.page.editables.map (loadEditable app.store)
        photoSrc := loadPhoto app.store app.page.photoSrc
        toolImgs := app.page.toolImgs.map (loadToolImg app.store)
        buttons := app.page.buttons.map (loadButton number app.store) } }

/-- Line 182: `element.dataset.original || 'Text'`. -/
def originalText (element : Editable) : String :=
  match element.original with
  | some original => if original ≠ "" then original else "Text"
  | none => "Text"

/-- Lines 175-199, with `confirmed` the answer given to `confirm(...)`. -/
def resetData (confirmed : Bool) (app : App) : App :=
  if !confirmed then app
  else
    showNotification "Данные сброшены!"
      { app with
        store := clear
        page :=
          { app.page with
            editables := app.page.editables.map
              (fun element => { element with innerHTML := originalText element })
            photoSrc := ""
            photoInputValue := ""
            toolImgs := app.page.toolImgs.map (fun img => { img with src := "" })
            toolInputs := app.page.toolInputs.map (fun el => { el with value := "" })
            buttons := app.page.buttons.map
              (fun btn => { btn with active := false, lastActive := false }) } }

/-- Lines 68-72: `querySelector` picks the first button with the given
`data-lang` and `data-level`; it gets `active`, and `lastActive` when `last`
holds. Nothing changes when there is no such button. -/
def markFirst (lang level : String) (last : Bool) : List Button → List Button
  | [] => []
  | button :: rest =>
    if button.lang = lang ∧ button.level = level then
      (if last then { button with active := true, lastActive := true }
        else { button with active := true }) :: rest
    else button :: markFirst lang level last rest

/-- The loop of lines 67-73 from counter `i`, for at most `fuel` iterations.
`number` is the built-in `Number` on strings (the comparisons `i <= level` and
`i == level` convert the string `level`), `string` the decimal text of the
counter in the selector. -/
def levelLoop (number : String → JSNum) (string : Nat → String) (lang level : String) :
    Nat → Nat → List Button → List Button
  | 0, _, buttons => buttons
  | fuel + 1, i, buttons =>
    if jsLe (some (i : ℚ)) (number level) then
      levelLoop number string lang level fuel (i + 1)
        (markFirst lang (string i) (jsEq (some (i : ℚ)) (number level)) buttons)
    else buttons

/-- The number of iterations of the loop of lines 67-73: the counter runs
from `1` while it is at most `level`. -/
def levelIterations (level : JSNum) : Nat :=
  match level with
  | some q => ⌊q⌋₊
  | none => 0

/-- Lines 57-77, for a click on a button with `dataset` `{ lang, level }`. -/
def changeLanguageLevel (number : String → JSNum) (string : Nat → String)
    (lang level : String) (app : App) : App :=
  let cleared := app.page.buttons.map
    (fun button => if button.lang = lang then { button with active := false, lastActive := false }
      else button)
  let marked := levelLoop number string lang level (levelIterations (number level)) 1 cleared
  showNotification defaultMessage
    { app with
      page := { app.page with buttons := marked }
      store := setItem app.store (levelKey lang) level }

/-- An instance of the built-in `Number` on the strings the level buttons
use: the value of a string of decimal digits (`0` for the empty string), and
`NaN` for every other string. -/
def decimalNumber (s : String) : JSNum :=
  if s.data.all Char.isDigit then
    some ((s.data.foldl (fun n c => 10 * n + (c.toNat - 48)) 0 : Nat) : ℚ)
  else none

/-- An instance of the built-in `String` on the loop counter: the decimal
text of a natural number. -/
def decimalString (i : Nat) : String :=
  toString i

/-- A page with the same buttons as `page`, none of them carrying `active` or
`lastActive`: the page as first rendered. -/
def unmarked (page : Page) : Page :=
  { page with
    buttons := page.buttons.map (fun btn => { btn with active := false, lastActive := false }) }

/-- A state with one field, `name`, whose content has been deleted. -/
def clearedField : App :=
  ⟨[], ⟨[⟨"name", "", some "Text"⟩], "", "", [], [], [], "", false⟩, [], [], []⟩

/-- The page of `clearedField` as served: the field `name` holds `Text`. -/
def servedPage : Page :=
  ⟨[⟨"name", "Text", some "Text"⟩], "", "", [], [], [], "", false⟩

/-- What `markFirst` does to a single button when it is the one selected. -/
def markOne (lang level : String) (last : Bool) (button : Button) : Button :=
  if button.lang = lang ∧ button.level = level then
    (if last then { button with active := true, lastActive := true }
      else { button with active := true })
  else button

/-- The effect of `levelLoop` on a single button, when no two buttons of the
language share a level. -/
def levelLoopOne (number : String → JSNum) (string : Nat → String) (lang level : String) :
    Nat → Nat → Button → Button
  | 0, _, button => button
  | fuel + 1, i, button =>
    if jsLe (some (i : ℚ)) (number level) then
      levelLoopOne number string lang level fuel (i + 1)
        (markOne lang (string i) (jsEq (some (i : ℚ)) (number level)) button)
    else button

/-- The first step of `changeLanguageLevel` on a single button (line 63). -/
def clearLang (lang : String) (button : Button) : Button :=
  if button.lang = lang then { button with active := false, lastActive := false } else button

/-- Whether a button belongs to the language `lang`. -/
def ofLang (lang : String) (button : Button) : Bool :=
  decide (button.lang = lang)

/-! ## Pagination: lemmas -/

theorem loopCond_iff (s : LoopState) : loopCond s = true ↔ 0 < s.heightLeft := by
  simp [loopCond]

theorem whileLoop_of_not_cond (w H P : ℚ) (fuel : Nat) (s : LoopState)
    (h : loopCond s = false) : whileLoop w H P fuel s = some s := by
  cases fuel <;> simp [whileLoop, h]

theorem whileLoop_iterate (w H P : ℚ) :
    ∀ (n fuel : Nat) (s : LoopState), n ≤ fuel →
      (∀ j, j < n → loopCond ((loopBody w H P)^[j] s) = true) →
      loopCond ((loopBody w H P)^[n] s) = false →
      whileLoop w H P fuel s = some ((loopBody w H P)^[n] s) := by
  intro n
  induction n with
  | zero =>
    intro fuel s _ _ hn
    exact whileLoop_of_not_cond w H P fuel s hn
  | succ n ih =>
    intro fuel s hle hlt hn
    obtain ⟨f, rfl⟩ : ∃ f, fuel = f + 1 := ⟨fuel - 1, by omega⟩
    have h0 : loopCond s = true := hlt 0 (Nat.succ_pos n)
    rw [whileLoop, if_pos h0, Function.iterate_succ_apply]
    apply ih f _ (by omega)
    · intro j hj
      have := hlt (j + 1) (by omega)
      rwa [Function.iterate_succ_apply] at this
    · rwa [Function.iterate_succ_apply] at hn

theorem whileLoop_none (w H P : ℚ) :
    ∀ (fuel : Nat) (s : LoopState),
      (∀ j, j ≤ fuel → loopCond ((loopBody w H P)^[j] s) = true) →
      whileLoop w H P fuel s = none := by
  intro fuel
  induction fuel with
  | zero =>
    intro s h
    have h0 : loopCond s = true := h 0 (Nat.le_refl 0)
    simp [whileLoop, h0]
  | succ f ih =>
    intro s h
    have h0 : loopCond s = true := h 0 (Nat.zero_le _)
    rw [whileLoop, if_pos h0]
    apply ih
    intro j hj
    have := h (j + 1) (by omega)
    rwa [Function.iterate_succ_apply] at this

theorem iterate_heightLeft (w H P : ℚ) (s : LoopState) (k : Nat) :
    ((loopBody w H P)^[k] s).heightLeft = s.heightLeft - (k : ℚ) * P := by
  induction k with
  | zero => simp
  | succ k ih =>
    rw [Function.iterate_succ_apply', loopBody]
    simp only [ih]
    push_cast
    ring

theorem pageCalls_succ_succ (w H P : ℚ) (k : Nat) :
    pageCalls w H P (k + 2) = pageCalls w H P (k + 1) ++ laterPage w H P k := by
  simp [pageCalls, List.range_succ]

theorem loopBody_stateAt (w H P : ℚ) (hP : P ≠ 0) (k : Nat) :
    loopBody w H P (stateAt w H P k) = stateAt w H P (k + 1) := by
  cases k with
  | zero =>
    simp [loopBody, stateAt, pageCalls]
  | succ k =>
    have hpos : ((k + 1 : Nat) : ℚ) * P ≠ 0 :=
      mul_ne_zero (Nat.cast_ne_zero.mpr (Nat.succ_ne_zero k)) hP
    rw [loopBody]
    simp only [stateAt]
    rw [if_pos hpos, pageCalls_succ_succ]
    simp only [laterPage]
    congr 1
    · push_cast; ring
    · push_cast; ring

theorem iterate_loopInit (w H P : ℚ) (hP : P ≠ 0) (k : Nat) :
    (loopBody w H P)^[k] (loopInit w H) = stateAt w H P k := by
  induction k with
  | zero => simp [loopInit, stateAt, pageCalls]
  | succ k ih => rw [Function.iterate_succ_apply', ih, loopBody_stateAt w H P hP]

/-- The pagination code finishes after `⌈imgHeight / pageHeight⌉` iterations
and has then issued the calls `pageCalls` of that many pages. -/
theorem paginate_eq (w H P : ℚ) (hP : 0 < P) (fuel : Nat) (hfuel : ⌈H / P⌉₊ ≤ fuel) :
    paginate fuel w H P = some (pageCalls w H P ⌈H / P⌉₊) := by
  have hP0 : P ≠ 0 := ne_of_gt hP
  have hrun := whileLoop_iterate w H P ⌈H / P⌉₊ fuel (loopInit w H) hfuel
    (by
      intro j hj
      rw [loopCond_iff, iterate_heightLeft]
      have h1 : (j : ℚ) < H / P := Nat.lt_ceil.mp hj
      have h2 : (j : ℚ) * P < H := (lt_div_iff₀ hP).mp h1
      simp only [loopInit]
      linarith)
    (by
      have h1 : H / P ≤ (⌈H / P⌉₊ : ℚ) := Nat.le_ceil _
      have h2 : H ≤ (⌈H / P⌉₊ : ℚ) * P := (div_le_iff₀ hP).mp h1
      have h3 : ¬ (0 < ((loopBody w H P)^[⌈H / P⌉₊] (loopInit w H)).heightLeft) := by
        rw [iterate_heightLeft]
        simp only [loopInit]
        linarith
      rw [← loopCond_iff] at h3
      simpa using h3)
  rw [paginate, hrun, iterate_loopInit w H P hP0]
  rfl

theorem drawPositions_append (a b : List PdfCall) :
    drawPositions (a ++ b) = drawPositions a ++ drawPositions b := by
  induction a with
  | nil => rfl
  | cons c cs ih => cases c <;> simp [drawPositions, ih]

theorem addPageCount_append (a b : List PdfCall) :
    addPageCount (a ++ b) = addPageCount a + addPageCount b := by
  induction a with
  | nil => simp [addPageCount]
  | cons c cs ih =>
    cases c
    · simp [addPageCount, ih]; omega
    · simp [addPageCount, ih]

theorem drawPositions_pageCalls (w H P : ℚ) (n : Nat) :
    drawPositions (pageCalls w H P (n + 1)) =
      (List.range (n + 1)).map (fun (k : Nat) => -((k : ℚ) * P)) := by
  induction n with
  | zero => simp [pageCalls, drawPositions, List.range_succ]
  | succ n ih =>
    rw [pageCalls_succ_succ, drawPositions_append, ih, List.range_succ (n + 1), List.map_append]
    simp [laterPage, drawPositions]

theorem addPageCount_pageCalls (w H P : ℚ) (n : Nat) :
    addPageCount (pageCalls w H P (n + 1)) = n := by
  induction n with
  | zero => simp [pageCalls, addPageCount]
  | succ n ih =>
    rw [pageCalls_succ_succ, addPageCount_append, ih]
    simp [laterPage, addPageCount]

theorem ceil_div_pos (H P : ℚ) (hH : 0 < H) (hP : 0 < P) : 0 < ⌈H / P⌉₊ :=
  Nat.ceil_pos.mpr (div_pos hH hP)

/-! ## Store and handlers: lemmas -/

theorem getItem_setItem_same (store : Store) (key value : String) :
    getItem (setItem store key value) key = some value := by
  induction store with
  | nil => simp [setItem, getItem]
  | cons kv rest ih =>
    obtain ⟨k, v⟩ := kv
    by_cases h : k = key
    · simp [setItem, getItem, h]
    · simp [setItem, getItem, h, ih]

theorem getItem_setItem_ne (store : Store) (key key' value : String) (hne : key' ≠ key) :
    getItem (setItem store key value) key' = getItem store key' := by
  induction store with
  | nil => simp [setItem, getItem, Ne.symm hne]
  | cons kv rest ih =>
    obtain ⟨k, v⟩ := kv
    by_cases h : k = key
    · subst h
      simp [setItem, getItem, Ne.symm hne]
    · by_cases h' : k = key'
      · subst h'
        simp [setItem, getItem, h]
      · simp [setItem, getItem, h, h', ih]

theorem getItem_saved_of_not_mem (key : String) :
    ∀ (elements : List Editable) (store : Store), key ∉ elements.map Editable.id →
      getItem (elements.foldl (fun st element => setItem st element.id element.innerHTML) store)
        key = getItem store key := by
  intro elements
  induction elements with
  | nil => intro store _; rfl
  | cons a rest ih =>
    intro store hmem
    simp only [List.map_cons, List.mem_cons, not_or] at hmem
    rw [List.foldl_cons, ih _ hmem.2, getItem_setItem_ne _ _ _ _ hmem.1]

theorem getItem_saved_of_mem :
    ∀ (elements : List Editable) (store : Store), (elements.map Editable.id).Nodup →
      ∀ element ∈ elements,
        getItem (elements.foldl (fun st el => setItem st el.id el.innerHTML) store)
          element.id = some element.innerHTML := by
  intro elements
  induction elements with
  | nil => intro store _ element h; cases h
  | cons a rest ih =>
    intro store hnd element hmem
    rw [List.map_cons, List.nodup_cons] at hnd
    rw [List.foldl_cons]
    rcases List.mem_cons.mp hmem with h | h
    · subst h
      rw [getItem_saved_of_not_mem _ _ _ hnd.1, getItem_setItem_same]
    · exact ih _ hnd.2 element h

theorem map_loadEditable_eq (store : Store) :
    ∀ (saved fresh : List Editable),
      fresh.map Editable.id = saved.map Editable.id →
      (∀ element ∈ saved, getItem store element.id = some element.innerHTML) →
      fresh.map (loadEditable store) =
        List.zipWith (fun (s el : Editable) =>
          if s.innerHTML ≠ "" then { el with innerHTML := s.innerHTML } else el) saved fresh := by
  intro saved
  induction saved with
  | nil =>
    intro fresh hids _
    cases fresh with
    | nil => rfl
    | cons a rest => simp at hids
  | cons s rest ih =>
    intro fresh hids hget
    cases fresh with
    | nil => simp at hids
    | cons el els =>
      simp only [List.map_cons, List.cons.injEq] at hids
      have h1 : getItem store el.id = some s.innerHTML := by
        rw [hids.1]
        exact hget s (List.mem_cons_self _ _)
      rw [List.map_cons, List.zipWith_cons_cons,
        ih els hids.2 (fun e he => hget e (List.mem_cons_of_mem _ he))]
      congr 1
      simp only [loadEditable, h1]

theorem markOne_lang (lang level : String) (last : Bool) (b : Button) :
    (markOne lang level last b).lang = b.lang := by
  unfold markOne
  split_ifs <;> rfl

theorem markOne_level (lang level : String) (last : Bool) (b : Button) :
    (markOne lang level last b).level = b.level := by
  unfold markOne
  split_ifs <;> rfl

theorem clearLang_lang (lang : String) (b : Button) : (clearLang lang b).lang = b.lang := by
  unfold clearLang
  split_ifs <;> rfl

theorem clearLang_level (lang : String) (b : Button) : (clearLang lang b).level = b.level := by
  unfold clearLang
  split_ifs <;> rfl

theorem filter_map_of_lang (lang : String) (f : Button → Button)
    (hf : ∀ b, (f b).lang = b.lang) (bs : List Button) :
    (bs.map f).filter (ofLang lang) = (bs.filter (ofLang lang)).map f := by
  induction bs with
  | nil => rfl
  | cons b rest ih =>
    by_cases h : b.lang = lang
    · simp [List.filter_cons, ofLang, hf, h, ih]
    · simp [List.filter_cons, ofLang, hf, h, ih]

theorem levels_map_of_level (lang : String) (f : Button → Button)
    (hl : ∀ b, (f b).lang = b.lang) (hv : ∀ b, (f b).level = b.level) (bs : List Button) :
    ((bs.map f).filter (ofLang lang)).map Button.level =
      (bs.filter (ofLang lang)).map Button.level := by
  rw [filter_map_of_lang lang f hl, List.map_map]
  apply List.map_congr_left
  intro b _
  exact hv b

theorem markFirst_eq_map (lang level : String) (last : Bool) :
    ∀ bs : List Button, ((bs.filter (ofLang lang)).map Button.level).Nodup →
      markFirst lang level last bs = bs.map (markOne lang level last) := by
  intro bs
  induction bs with
  | nil => intro _; rfl
  | cons b rest ih =>
    intro hnd
    by_cases hb : b.lang = lang ∧ b.level = level
    · have hfil : (b :: rest).filter (ofLang lang) = b :: rest.filter (ofLang lang) := by
        simp [List.filter_cons, ofLang, hb.1]
      rw [hfil, List.map_cons, List.nodup_cons] at hnd
      have hrest : rest.map (markOne lang level last) = rest := by
        conv_rhs => rw [← List.map_id rest]
        apply List.map_congr_left
        intro b' hb'
        unfold markOne
        rw [if_neg]
        · rfl
        · intro hm
          apply hnd.1
          rw [hb.2, ← hm.2]
          exact List.mem_map_of_mem _ (List.mem_filter.mpr ⟨hb', by simp [ofLang, hm.1]⟩)
      rw [markFirst, if_pos hb, List.map_cons, hrest]
      simp [markOne, hb]
    · have hnd' : ((rest.filter (ofLang lang)).map Button.level).Nodup := by
        by_cases hl : b.lang = lang
        · have hfil : (b :: rest).filter (ofLang lang) = b :: rest.filter (ofLang lang) := by
            simp [List.filter_cons, ofLang, hl]
          rw [hfil, List.map_cons, List.nodup_cons] at hnd
          exact hnd.2
        · have hfil : (b :: rest).filter (ofLang lang) = rest.filter (ofLang lang) := by
            simp [List.filter_cons, ofLang, hl]
          rwa [hfil] at hnd
      rw [markFirst, if_neg hb, List.map_cons, ih hnd']
      simp [markOne, hb]

theorem levelLoop_eq_map (number : String → JSNum) (string : Nat → String)
    (lang level : String) :
    ∀ (fuel i : Nat) (bs : List Button),
      ((bs.filter (ofLang lang)).map Button.level).Nodup →
      levelLoop number string lang level fuel i bs =
        bs.map (levelLoopOne number string lang level fuel i) := by
  intro fuel
  induction fuel with
  | zero =>
    intro i bs _
    simp [levelLoop, levelLoopOne]
  | succ fuel ih =>
    intro i bs hnd
    by_cases hc : jsLe (some (i : ℚ)) (number level) = true
    · have hnd' : (((bs.map (markOne lang (string i)
          (jsEq (some (i : ℚ)) (number level)))).filter (ofLang lang)).map Button.level).Nodup := by
        rw [levels_map_of_level lang _ (markOne_lang _ _ _) (markOne_level _ _ _)]
        exact hnd
      rw [levelLoop, if_pos hc, markFirst_eq_map _ _ _ bs hnd, ih _ _ hnd', List.map_map]
      apply List.map_congr_left
      intro b _
      simp [levelLoopOne, hc]
    · rw [levelLoop, if_neg hc]
      conv_lhs => rw [← List.map_id bs]
      apply List.map_congr_left
      intro b _
      simp [levelLoopOne, hc]

/-- The loop on a button of the language with level `string j`: it becomes
`active` when the counter reaches `j`, and `lastActive` when moreover `j` is
the clicked level `L`. -/
theorem levelLoopOne_of_level (number : String → JSNum) (string : Nat → String)
    (lang : String) (N L j : Nat)
    (hnum : ∀ i, 1 ≤ i → i ≤ N → number (string i) = some (i : ℚ))
    (hLN : L ≤ N) (hL1 : 1 ≤ L) (hj1 : 1 ≤ j) (hjN : j ≤ N) :
    ∀ (fuel i : Nat) (a l : Bool), 1 ≤ i → i + fuel = L + 1 →
      levelLoopOne number string lang (string L) fuel i ⟨lang, string j, a, l⟩ =
        ⟨lang, string j, a || decide (i ≤ j ∧ j ≤ L), l || decide (i ≤ j ∧ j = L)⟩ := by
  have hinj : ∀ i, 1 ≤ i → i ≤ N → string i = string j → i = j := by
    intro i hi1 hiN h
    have h1 := hnum i hi1 hiN
    rw [h, hnum j hj1 hjN] at h1
    exact_mod_cast (Option.some.inj h1).symm
  intro fuel
  induction fuel with
  | zero =>
    intro i a l _ hsum
    have h1 : ¬ (i ≤ j ∧ j ≤ L) := by omega
    have h2 : ¬ (i ≤ j ∧ j = L) := by omega
    simp [levelLoopOne, h1, h2]
  | succ fuel ih =>
    intro i a l hi1 hsum
    have hiL : i ≤ L := by omega
    have hc : jsLe (some (i : ℚ)) (number (string L)) = true := by
      rw [hnum L hL1 hLN]
      simp only [jsLe, decide_eq_true_eq]
      exact_mod_cast hiL
    have he : jsEq (some (i : ℚ)) (number (string L)) = decide (i = L) := by
      rw [hnum L hL1 hLN]
      simp only [jsEq]
      congr 1
      exact propext Nat.cast_inj
    rw [levelLoopOne, if_pos hc, he]
    by_cases hij : i = j
    · subst hij
      by_cases hiL' : i = L
      · subst hiL'
        have h1 : ¬ (i + 1 ≤ i ∧ i ≤ i) := by omega
        have h2 : ¬ (i + 1 ≤ i ∧ i = i) := by omega
        simp [markOne, ih (i + 1) true true (by omega) (by omega), h1, h2]
      · have h1 : ¬ (i + 1 ≤ i ∧ i ≤ L) := by omega
        have h2 : ¬ (i + 1 ≤ i ∧ i = L) := by omega
        simp [markOne, hiL', ih (i + 1) true l (by omega) (by omega), h1, h2, hiL]
    · have hs : string i ≠ string j := fun h => hij (hinj i hi1 (by omega) h)
      have h1 : (i + 1 ≤ j ∧ j ≤ L) ↔ (i ≤ j ∧ j ≤ L) := by omega
      have h2 : (i + 1 ≤ j ∧ j = L) ↔ (i ≤ j ∧ j = L) := by omega
      have hs' : ¬ string j = string i := fun h => hs h.symm
      simp only [markOne, hs', and_false, if_false]
      rw [ih (i + 1) a l (by omega) (by omega)]
      simp only [h1, h2]

/-- The bound `levelIterations` on the loop of `changeLanguageLevel` is never
reached early: more room for iterations gives the same buttons. -/
theorem levelLoop_more_fuel (number : String → JSNum) (string : Nat → String)
    (lang level : String) (extra : Nat) :
    ∀ (fuel i : Nat) (bs : List Button),
      jsLe (some ((i + fuel : Nat) : ℚ)) (number level) = false →
      levelLoop number string lang level (fuel + extra) i bs =
        levelLoop number string lang level fuel i bs := by
  intro fuel
  induction fuel with
  | zero =>
    intro i bs h
    rw [Nat.add_zero] at h
    cases extra <;> simp [levelLoop, h]
  | succ fuel ih =>
    intro i bs h
    rw [show fuel + 1 + extra = (fuel + extra) + 1 by omega, levelLoop, levelLoop]
    split_ifs
    · exact ih _ _ (by rw [show i + 1 + fuel = i + (fuel + 1) by omega]; exact h)
    · rfl

theorem levelIterations_enough (level : JSNum) :
    jsLe (some ((1 + levelIterations level : Nat) : ℚ)) level = false := by
  cases level with
  | none => rfl
  | some q =>
    simp only [jsLe, levelIterations, decide_eq_false_iff_not, not_le]
    have := Nat.lt_floor_add_one q
    push_cast
    linarith

theorem levelLoop_levelIterations (number : String → JSNum) (string : Nat → String)
    (lang level : String) (extra : Nat) (bs : List Button) :
    levelLoop number string lang level (levelIterations (number level) + extra) 1 bs =
      levelLoop number string lang level (levelIterations (number level)) 1 bs :=
  levelLoop_more_fuel number string lang level extra _ 1 bs
    (levelIterations_enough (number level))

theorem levelLoopOne_lang (number : String → JSNum) (string : Nat → String)
    (lang level : String) :
    ∀ (fuel i : Nat) (b : Button),
      (levelLoopOne number string lang level fuel i b).lang = b.lang := by
  intro fuel
  induction fuel with
  | zero => intro i b; rfl
  | succ fuel ih =>
    intro i b
    rw [levelLoopOne]
    split_ifs
    · rw [ih, markOne_lang]
    · rfl

theorem map_eq_of_levels (string : Nat → String) (lang : String)
    (F : Button → Button) (G : Nat → Button) (ok : Nat → Prop)
    (hFG : ∀ (j : Nat) (a l : Bool), ok j → F ⟨lang, string j, a, l⟩ = G j) :
    ∀ (bs : List Button) (js : List Nat),
      bs.map Button.level = js.map string → (∀ b ∈ bs, b.lang = lang) → (∀ j ∈ js, ok j) →
      bs.map F = js.map G := by
  intro bs
  induction bs with
  | nil =>
    intro js h _ _
    cases js with
    | nil => rfl
    | cons j rest => simp at h
  | cons b rest ih =>
    intro js h hlang hok
    cases js with
    | nil => simp at h
    | cons j js' =>
      simp only [List.map_cons, List.cons.injEq] at h
      rw [List.map_cons, List.map_cons,
        ih js' h.2 (fun b' hb' => hlang b' (List.mem_cons_of_mem _ hb'))
          (fun j' hj' => hok j' (List.mem_cons_of_mem _ hj'))]
      congr 1
      obtain ⟨bl, bv, ba, bla⟩ := b
      have h1 : bl = lang := hlang _ (List.mem_cons_self _ _)
      have h2 : bv = string j := h.1
      subst h1 h2
      exact hFG j ba bla (hok j (List.mem_cons_self _ _))

/-! ## Pagination: the claims -/

/-- C1: for `imgHeight > 0` and `pageHeight > 0` the pagination code, given
room for `⌈imgHeight / pageHeight⌉` iterations, returns, and its image-draw
calls are exactly `⌈imgHeight / pageHeight⌉` many, the `k`-th at vertical
position `-(k * pageHeight)`. -/
theorem paginate_draws (w H P : ℚ) (hH : 0 < H) (hP : 0 < P) (fuel : Nat)
    (hfuel : ⌈H / P⌉₊ ≤ fuel) :
    ∃ calls, paginate fuel w H P = some calls ∧
      (drawPositions calls).length = ⌈H / P⌉₊ ∧
      drawPositions calls = (List.range ⌈H / P⌉₊).map (fun (k : Nat) => -((k : ℚ) * P)) := by
  refine ⟨_, paginate_eq w H P hP fuel hfuel, ?_⟩
  obtain ⟨n, hn⟩ : ∃ n, ⌈H / P⌉₊ = n + 1 :=
    ⟨⌈H / P⌉₊ - 1, by have := ceil_div_pos H P hH hP; omega⟩
  rw [hn, drawPositions_pageCalls]
  simp

/-- C1 at `imgHeight = 2.5 * pageHeight` with an A4 page (`pageHeight = 297`):
three draws, at `0`, `-297` and `-594`. -/
theorem paginate_draws_witness :
    (0 : ℚ) < 1485 / 2 ∧ (0 : ℚ) < 297 ∧
      ∃ calls, paginate 3 210 (1485 / 2) 297 = some calls ∧
        drawPositions calls = [0, -297, -594] := by
  have hc : ⌈(1485 / 2 : ℚ) / 297⌉₊ = 3 := by
    rw [Nat.ceil_eq_iff (by norm_num)]
    norm_num
  obtain ⟨calls, h1, _, h3⟩ :=
    paginate_draws 210 (1485 / 2) 297 (by norm_num) (by norm_num) 3 (le_of_eq hc)
  refine ⟨by norm_num, by norm_num, calls, h1, ?_⟩
  rw [h3, hc]
  simp [List.range_succ]
  norm_num

/-- C3: for `0 < imgHeight ≤ pageHeight` the pagination code, given room for
one iteration, returns having made a single call: the image drawn at vertical
position `0`; `addPage` is not called. -/
theorem paginate_single_page (w H P : ℚ) (hH : 0 < H) (hHP : H ≤ P) (fuel : Nat)
    (hfuel : 1 ≤ fuel) :
    paginate fuel w H P = some [PdfCall.addImage 0 0 w H] := by
  have hP : 0 < P := lt_of_lt_of_le hH hHP
  have hc : ⌈H / P⌉₊ = 1 := by
    rw [Nat.ceil_eq_iff (by norm_num)]
    refine ⟨by simpa using div_pos hH hP, ?_⟩
    rw [div_le_iff₀ hP]
    simpa using hHP
  have h := paginate_eq w H P hP fuel (by omega)
  rw [h, hc]
  simp [pageCalls]

/-- C3 at the boundary `imgHeight = pageHeight = 297`. -/
theorem paginate_single_page_witness :
    paginate 1 210 297 297 = some [PdfCall.addImage 0 0 210 297] :=
  paginate_single_page 210 297 297 (by norm_num) (le_refl _) 1 (le_refl _)

/-- C4: for `imgHeight > 0` and `pageHeight > 0` the calls made are the image
on the first page with no `addPage` before it, then for each later page one
`addPage` directly followed by one draw; there are `pageCount - 1` calls of
`addPage`, and as many draws as pages. -/
theorem paginate_addPage_before_later_draws (w H P : ℚ) (hH : 0 < H) (hP : 0 < P)
    (fuel : Nat) (hfuel : ⌈H / P⌉₊ ≤ fuel) :
    ∃ calls, paginate fuel w H P = some calls ∧
      calls = PdfCall.addImage 0 0 w H ::
        ((List.range (⌈H / P⌉₊ - 1)).map (fun k =>
          [PdfCall.addPage,
            PdfCall.addImage 0 (-(((k + 1 : Nat) : ℚ) * P)) w H])).flatten ∧
      addPageCount calls = ⌈H / P⌉₊ - 1 ∧
      (drawPositions calls).length = addPageCount calls + 1 := by
  refine ⟨_, paginate_eq w H P hP fuel hfuel, rfl, ?_⟩
  obtain ⟨n, hn⟩ : ∃ n, ⌈H / P⌉₊ = n + 1 :=
    ⟨⌈H / P⌉₊ - 1, by have := ceil_div_pos H P hH hP; omega⟩
  rw [hn, drawPositions_pageCalls, addPageCount_pageCalls]
  simp

/-- C4 at `imgHeight = 500`, `pageHeight = 297`: two pages, one `addPage`. -/
theorem paginate_addPage_before_later_draws_witness :
    ∃ calls, paginate 2 210 500 297 = some calls ∧
      calls = [PdfCall.addImage 0 0 210 500, PdfCall.addPage,
        PdfCall.addImage 0 (-297) 210 500] ∧
      addPageCount calls = 1 := by
  have hc : ⌈(500 : ℚ) / 297⌉₊ = 2 := by
    rw [Nat.ceil_eq_iff (by norm_num)]
    norm_num
  obtain ⟨calls, h1, h2, h3, _⟩ :=
    paginate_addPage_before_later_draws 210 500 297 (by norm_num) (by norm_num) 2 (le_of_eq hc)
  refine ⟨calls, h1, ?_, by rw [h3, hc]⟩
  rw [h2, hc]
  simp [List.range_succ]

/-- C9: for `pageHeight > 0` the loop finishes from every state within
`⌈heightLeft / pageHeight⌉` iterations; every iteration lowers `heightLeft` by
exactly `pageHeight`; and for `pageHeight ≤ 0` and `imgHeight > 0` the loop
condition holds after every number of iterations, so the loop does not finish
within any bound. -/
theorem whileLoop_terminates_iff (w H P : ℚ) :
    (0 < P → ∀ s : LoopState, ∀ fuel, ⌈s.heightLeft / P⌉₊ ≤ fuel →
      ∃ s', whileLoop w H P fuel s = some s' ∧ loopCond s' = false) ∧
    (∀ s : LoopState, (loopBody w H P s).heightLeft = s.heightLeft - P) ∧
    (0 < P → ∀ s : LoopState, (loopBody w H P s).heightLeft < s.heightLeft) ∧
    (P ≤ 0 → 0 < H →
      (∀ k, loopCond ((loopBody w H P)^[k] (loopInit w H)) = true) ∧
      ∀ fuel, whileLoop w H P fuel (loopInit w H) = none) := by
  refine ⟨?_, ?_, ?_, ?_⟩
  · intro hP s fuel hfuel
    have hfalse : loopCond ((loopBody w H P)^[⌈s.heightLeft / P⌉₊] s) = false := by
      have h1 : s.heightLeft / P ≤ (⌈s.heightLeft / P⌉₊ : ℚ) := Nat.le_ceil _
      have h2 : s.heightLeft ≤ (⌈s.heightLeft / P⌉₊ : ℚ) * P := (div_le_iff₀ hP).mp h1
      have h3 : ¬ (0 < ((loopBody w H P)^[⌈s.heightLeft / P⌉₊] s).heightLeft) := by
        rw [iterate_heightLeft]
        linarith
      rw [← loopCond_iff] at h3
      simpa using h3
    refine ⟨_, whileLoop_iterate w H P ⌈s.heightLeft / P⌉₊ fuel s hfuel ?_ hfalse, hfalse⟩
    intro j hj
    rw [loopCond_iff, iterate_heightLeft]
    have h1 : (j : ℚ) < s.heightLeft / P := Nat.lt_ceil.mp hj
    have h2 : (j : ℚ) * P < s.heightLeft := (lt_div_iff₀ hP).mp h1
    linarith
  · intro s
    rfl
  · intro hP s
    show s.heightLeft - P < s.heightLeft
    linarith
  · intro hP hH
    have hall : ∀ k, loopCond ((loopBody w H P)^[k] (loopInit w H)) = true := by
      intro k
      rw [loopCond_iff, iterate_heightLeft]
      have hk : (k : ℚ) * P ≤ 0 := mul_nonpos_of_nonneg_of_nonpos (Nat.cast_nonneg k) hP
      simp only [loopInit]
      linarith
    exact ⟨hall, fun fuel => whileLoop_none w H P fuel _ (fun j _ => hall j)⟩

/-- C9 at `imgHeight = 500`: with `pageHeight = 297` the loop finishes within
two iterations, with `pageHeight = 0` it never does. -/
theorem whileLoop_terminates_iff_witness :
    (∃ s', whileLoop 210 500 297 2 (loopInit 210 500) = some s' ∧ loopCond s' = false) ∧
    (∀ fuel, whileLoop 210 500 0 fuel (loopInit 210 500) = none) :=
  ⟨(whileLoop_terminates_iff 210 500 297).1 (by norm_num) (loopInit 210 500) 2
      (by
        rw [Nat.ceil_le]
        norm_num [loopInit]),
    ((whileLoop_terminates_iff 210 500 0).2.2.2 (le_refl _) (by norm_num)).2⟩

/-! ## Store and handlers: the claims -/

/-- C5, as stated, fails: a field saved with empty content and loaded on a
page where the field holds `Text` keeps `Text`. -/
theorem save_load_empty_not_restored :
    servedPage.editables.map Editable.id = clearedField.page.editables.map Editable.id ∧
      (clearedField.page.editables.map Editable.id).Nodup ∧
      clearedField.page.editables.map Editable.innerHTML = [""] ∧
      getItem (saveData clearedField).store "name" = some "" ∧
      (loadSavedData decimalNumber
        { saveData clearedField with page := servedPage }).page.editables.map
          Editable.innerHTML = ["Text"] ∧
      (loadSavedData decimalNumber
        { saveData clearedField with page := servedPage }).page.editables.map
          Editable.innerHTML ≠ clearedField.page.editables.map Editable.innerHTML := by
  decide

/-- C5, amended: for fields with pairwise distinct ids, `saveData` followed by
`loadSavedData` on a page with the same fields sets every field saved with
non-empty content to exactly that content, and leaves every field saved with
empty content as it was on the page. -/
theorem save_load_editables (number : String → JSNum) (app : App) (fresh : Page)
    (hids : fresh.editables.map Editable.id = app.page.editables.map Editable.id)
    (hnodup : (app.page.editables.map Editable.id).Nodup) :
    (loadSavedData number { saveData app with page := fresh }).page.editables =
      List.zipWith (fun (saved el : Editable) =>
        if saved.innerHTML ≠ "" then { el with innerHTML := saved.innerHTML } else el)
        app.page.editables fresh.editables := by
  simp only [loadSavedData]
  exact map_loadEditable_eq _ _ _ hids
    (fun element he => getItem_saved_of_mem _ _ hnodup element he)

/-- C5, amended, on two fields: the one saved with content comes back, the
one saved empty keeps the content of the page. -/
theorem save_load_editables_witness :
    (loadSavedData decimalNumber
      { saveData ⟨[("name", "old")],
          ⟨[⟨"name", "Anna", none⟩, ⟨"job", "", none⟩], "", "", [], [], [], "", false⟩,
          [], [], []⟩ with
        page := ⟨[⟨"name", "Name", none⟩, ⟨"job", "Job", none⟩], "", "", [], [], [], "",
          false⟩ }).page.editables =
      [⟨"name", "Anna", none⟩, ⟨"job", "Job", none⟩] :=
  save_load_editables decimalNumber
    ⟨[("name", "old")],
      ⟨[⟨"name", "Anna", none⟩, ⟨"job", "", none⟩], "", "", [], [], [], "", false⟩, [], [], []⟩
    ⟨[⟨"name", "Name", none⟩, ⟨"job", "Job", none⟩], "", "", [], [], [], "", false⟩
    (by decide) (by decide)

/-- C6: for a button that carries neither class and whose key
`lang-<lang>-level` is absent from the store, `loadSavedData` keeps its
language and level, marks it `active` exactly when its level is a number at
most 5, and `lastActive` exactly when its level is 5. -/
theorem loadSavedData_default_level (number : String → JSNum) (app : App) (i : Nat)
    (btn : Button) (hbtn : app.page.buttons[i]? = some btn)
    (habsent : getItem app.store (levelKey btn.lang) = none)
    (hactive : btn.active = false) (hlast : btn.lastActive = false) :
    ∃ btn', (loadSavedData number app).page.buttons[i]? = some btn' ∧
      btn'.lang = btn.lang ∧ btn'.level = btn.level ∧
      (btn'.active = true ↔ ∃ q, number btn.level = some q ∧ q ≤ 5) ∧
      (btn'.lastActive = true ↔ number btn.level = some 5) := by
  refine ⟨loadButton number app.store btn, ?_, ?_⟩
  · simp [loadSavedData, List.getElem?_map, hbtn]
  · simp only [loadButton, savedLevelOf, habsent, DEFAULT_LANGUAGE_LEVEL]
    cases hn : number btn.level with
    | none => simp [jsLe, hactive, hlast]
    | some q =>
      by_cases hle : q ≤ 5
      · by_cases heq : q = 5
        · simp [jsLe, jsEq, heq]
        · simp [jsLe, jsEq, hle, heq, hlast]
      · have hne : q ≠ 5 := fun h => hle (le_of_eq h)
        simp [jsLe, hle, hne, hactive, hlast]

/-- C6 on a page with one button of level `3` and an empty store. -/
theorem loadSavedData_default_level_witness :
    ∃ btn', (loadSavedData decimalNumber
        ⟨[], ⟨[], "", "", [], [], [⟨"en", "3", false, false⟩], "", false⟩, [], [],
          []⟩).page.buttons[0]? = some btn' ∧
      btn'.lang = "en" ∧ btn'.level = "3" ∧
      (btn'.active = true ↔ ∃ q, decimalNumber "3" = some q ∧ q ≤ 5) ∧
      (btn'.lastActive = true ↔ decimalNumber "3" = some 5) :=
  loadSavedData_default_level decimalNumber
    ⟨[], ⟨[], "", "", [], [], [⟨"en", "3", false, false⟩], "", false⟩, [], [], []⟩
    0 ⟨"en", "3", false, false⟩ (by decide) (by decide) rfl rfl

/-- C7: after a confirmed `resetData` the store has no key and every editable
field holds its `data-original` value, or `Text` when that is absent or empty;
after a declined one the whole state is as before. -/
theorem resetData_clears_and_restores (app : App) :
    ((resetData true app).store = [] ∧
      (∀ key, getItem (resetData true app).store key = none) ∧
      (resetData true app).page.editables = app.page.editables.map (fun element =>
        { element with
          innerHTML :=
            match element.original with
            | some original => if original = "" then "Text" else original
            | none => "Text" })) ∧
    resetData false app = app := by
  refine ⟨⟨rfl, fun key => rfl, ?_⟩, rfl⟩
  simp only [resetData, showNotification, Bool.not_true, Bool.false_eq_true, if_false]
  apply List.map_congr_left
  intro element _
  simp only [originalText]
  cases element.original with
  | none => rfl
  | some original => by_cases h : original = "" <;> simp [h]

/-- C10: when the buttons of a language carry the levels `1..N` (in the order
`js`) and `Number` reads back the decimal text of each of them, a click on the button of level
`L` leaves the buttons of levels `1..L` `active`, only the button of level `L`
`lastActive` and no other button of the language marked, and stores the level
under `lang-<lang>-level`; and `loadSavedData` on the unmarked page with the
store left by the click marks the buttons of the language in exactly the same
way. -/
theorem level_round_trip (number : String → JSNum) (string : Nat → String) (app : App)
    (lang : String) (N L : Nat) (js : List Nat)
    (hnum : ∀ i, 1 ≤ i → i ≤ N → number (string i) = some (i : ℚ))
    (hstr : ∀ i, 1 ≤ i → i ≤ N → string i ≠ "")
    (hjs : js.Perm (List.range' 1 N))
    (hbuttons : (app.page.buttons.filter (ofLang lang)).map Button.level = js.map string)
    (hL1 : 1 ≤ L) (hLN : L ≤ N) :
    (changeLanguageLevel number string lang (string L) app).page.buttons.filter (ofLang lang) =
        js.map (fun j => (⟨lang, string j, decide (j ≤ L), decide (j = L)⟩ : Button)) ∧
      (loadSavedData number
          { changeLanguageLevel number string lang (string L) app with
            page := unmarked app.page }).page.buttons.filter (ofLang lang) =
        (changeLanguageLevel number string lang (string L) app).page.buttons.filter
          (ofLang lang) ∧
      getItem (changeLanguageLevel number string lang (string L) app).store (levelKey lang) =
        some (string L) := by
  have hrange : ∀ j ∈ js, 1 ≤ j ∧ j ≤ N := by
    intro j hj
    rw [hjs.mem_iff, List.mem_range'_1] at hj
    omega
  have hinj : ∀ i ∈ js, ∀ j ∈ js, string i = string j → i = j := by
    intro i hi j hj h
    have h1 := hnum i (hrange i hi).1 (hrange i hi).2
    rw [h, hnum j (hrange j hj).1 (hrange j hj).2] at h1
    exact_mod_cast (Option.some.inj h1).symm
  have hlangs : ∀ b ∈ app.page.buttons.filter (ofLang lang), b.lang = lang := by
    intro b hb
    simpa [ofLang] using (List.mem_filter.mp hb).2
  have hnd : (((app.page.buttons.map (clearLang lang)).filter (ofLang lang)).map
      Button.level).Nodup := by
    rw [levels_map_of_level lang _ (clearLang_lang lang) (clearLang_level lang), hbuttons]
    exact List.Nodup.map_on hinj (hjs.nodup_iff.mpr (List.nodup_range' 1 N))
  have hiter : levelIterations (number (string L)) = L := by
    rw [hnum L hL1 hLN]
    exact Nat.floor_natCast L
  have hclicked : (changeLanguageLevel number string lang (string L) app).page.buttons =
      app.page.buttons.map (fun b =>
        levelLoopOne number string lang (string L) L 1 (clearLang lang b)) := by
    show levelLoop number string lang (string L) (levelIterations (number (string L))) 1
      (app.page.buttons.map (clearLang lang)) = _
    rw [hiter, levelLoop_eq_map number string lang (string L) L 1 _ hnd, List.map_map]
    rfl
  have hstore : getItem (changeLanguageLevel number string lang (string L) app).store
      (levelKey lang) = some (string L) := by
    show getItem (setItem app.store (levelKey lang) (string L)) (levelKey lang) = _
    exact getItem_setItem_same _ _ _
  have hfirst : (changeLanguageLevel number string lang (string L) app).page.buttons.filter
      (ofLang lang) = js.map
        (fun j => (⟨lang, string j, decide (j ≤ L), decide (j = L)⟩ : Button)) := by
    rw [hclicked, filter_map_of_lang lang _ (fun b => by
      cases b
      simp only [clearLang]
      split_ifs with h
      · rw [levelLoopOne_lang]
      · rw [levelLoopOne_lang])]
    apply map_eq_of_levels string lang _ _ (fun j => 1 ≤ j ∧ j ≤ N) _ _ _ hbuttons hlangs hrange
    intro j a l hj
    have h1 : (1 ≤ j ∧ j ≤ L) ↔ j ≤ L := by omega
    have h2 : (1 ≤ j ∧ j = L) ↔ j = L := by omega
    simp only [clearLang, if_true]
    rw [levelLoopOne_of_level number string lang N L j hnum hLN hL1 hj.1 hj.2 L 1 false false
      (le_refl 1) (by omega)]
    simp only [h1, h2, Bool.false_or]
  refine ⟨hfirst, ?_, hstore⟩
  rw [hfirst]
  show ((app.page.buttons.map (fun btn =>
      ({ btn with active := false, lastActive := false } : Button))).map
    (loadButton number (changeLanguageLevel number string lang (string L) app).store)).filter
      (ofLang lang) = _
  rw [List.map_map, filter_map_of_lang lang _ (fun b => by
    simp only [Function.comp, loadButton]
    split_ifs <;> rfl)]
  apply map_eq_of_levels string lang _ _ (fun j => 1 ≤ j ∧ j ≤ N) _ _ _ hbuttons hlangs hrange
  intro j a l hj
  simp only [Function.comp, loadButton, savedLevelOf, hstore, hstr L hL1 hLN, ne_eq,
    not_false_eq_true, if_true, hnum L hL1 hLN, hnum j hj.1 hj.2, jsLe, jsEq]
  by_cases hjL : j ≤ L
  · by_cases hjeq : j = L
    · simp [hjeq]
    · simp [hjL, hjeq]
  · have hjeq : j ≠ L := by omega
    simp [hjL, hjeq]

/-- C10 for three levels of `en`, the button of level `3` coming first on the
page, and a click on level `2`, with decimal numerals for `String` and
`Number`. -/
theorem level_round_trip_witness :
    (changeLanguageLevel decimalNumber decimalString "en" "2"
        ⟨[("lang-en-level", "3")],
          ⟨[], "", "", [], [],
            [⟨"en", "3", true, true⟩, ⟨"de", "1", true, true⟩, ⟨"en", "1", true, false⟩,
              ⟨"en", "2", true, false⟩], "", false⟩,
          [], [], []⟩).page.buttons.filter (ofLang "en") =
      [⟨"en", "3", false, false⟩, ⟨"en", "1", true, false⟩, ⟨"en", "2", true, true⟩] := by
  have h := (level_round_trip decimalNumber decimalString
    ⟨[("lang-en-level", "3")],
      ⟨[], "", "", [], [],
        [⟨"en", "3", true, true⟩, ⟨"de", "1", true, true⟩, ⟨"en", "1", true, false⟩,
          ⟨"en", "2", true, false⟩], "", false⟩,
      [], [], []⟩ "en" 3 2 [3, 1, 2]
    (by intro i h1 h3; interval_cases i <;> decide)
    (by intro i h1 h3; interval_cases i <;> decide)
    (by decide) (by decide) (by decide) (by decide)).1
  rw [show decimalString 2 = "2" by decide] at h
  rw [h]
  decide

end Resume
